/-
Verification of the indexed fragment database (`database_opt.rs`):
data model, construction pipeline, tolerance-bounded binary search and
the two-stage `page_search` range query, as a shallow embedding.

Floating-point masses are embedded as rationals: the code only compares
masses via `total_cmp` and the domain guarantees no NaN or infinite
values, so any decidable linear order is a faithful model. Rust's stable
`sort_by` is modelled by `List.insertionSort`, which is also stable, and
a stable sort's output is uniquely determined by the comparison, so the
two agree. A Rust operation that can panic (slice indexing) is embedded
as an `Option`, with `none` standing for the panic.
-/
import Mathlib

/-- Ion kind from the ion-series collaborator: N-terminal B or C-terminal Y. -/
inductive Kind
  | b
  | y
deriving DecidableEq, Inhabited

/-- Modelled from the spec: an ion produced by the ion-series collaborator,
carrying an m/z, a kind and a charge (`ion_series.rs` is not under `src/`). -/
structure Ion where
  mz : ℚ
  kind : Kind
  charge : Nat
deriving DecidableEq

/-- Modelled from the spec: a digestion result from the digestion collaborator
(`fasta.rs` is not under `src/`): a derived peptide sequence (residues as
abstract codes) and a boolean reversed/decoy flag. -/
structure Digest where
  sequence : List Nat
  reversed : Bool
deriving DecidableEq

/-- Modelled from the spec: a peptide object from the peptide collaborator
(`peptide.rs` is not under `src/`): carries its neutral monoisotopic mass and
its residue sequence. -/
structure Peptide where
  neutral : ℚ
  seq : List Nat
deriving DecidableEq

/-- Target/decoy tagged peptide (`TargetDecoy` from the peptide collaborator):
a genuine (target) or reversed (decoy) peptide. -/
inductive TargetDecoy
  | target (p : Peptide)
  | decoy (p : Peptide)
deriving DecidableEq

/-- Neutral mass of a target/decoy peptide (`TargetDecoy::neutral`). -/
def TargetDecoy.neutral : TargetDecoy → ℚ
  | .target p => p.neutral
  | .decoy p => p.neutral

/-- Underlying peptide of a target/decoy entry (`TargetDecoy::peptide`). -/
def TargetDecoy.peptide : TargetDecoy → Peptide
  | .target p => p
  | .decoy p => p

/-- Theoretical fragment record (`Theoretical` in `database_opt.rs`):
the owning peptide's index (`PeptideIx` is a dense integer handle, embedded
as `Nat`), the denormalized precursor neutral mass, the fragment m/z, the
ion kind and the charge. -/
structure Theoretical where
  peptide_index : Nat
  precursor_mz : ℚ
  fragment_mz : ℚ
  kind : Kind
  charge : Nat
deriving DecidableEq, Inhabited

/-- The bucket size constant `FRAGMENT_BUCKET_SIZE` from `database_opt.rs`. -/
def FRAGMENT_BUCKET_SIZE : Nat := 8196

/-- Modelled from the spec: the proton mass constant `PROTON` from the mass
collaborator (`mass.rs` is not under `src/`; the spec only uses it to convert
an observed precursor m/z to a neutral mass by subtracting one proton). -/
def PROTON : ℚ := 1007276 / 1000000

/-- Modelled from the spec: the tolerance collaborator (`mass.rs` is not under
`src/`): given a center value it returns an inclusive lower/upper bound pair. -/
structure Tolerance where
  boundsFn : ℚ → ℚ × ℚ

/-- Bounds of a tolerance window around a center (`Tolerance::bounds`). -/
def Tolerance.bounds (t : Tolerance) (center : ℚ) : ℚ × ℚ := t.boundsFn center

/-- Modelled from the spec: the spectrum collaborator (`spectrum.rs` is not
under `src/`): a processed spectrum supplies an observed precursor m/z. -/
structure ProcessedSpectrum where
  precursor_mz : ℚ

/-! ### Rust standard-library binary search

`binary_search_slice` calls `slice::binary_search_by`, which since Rust 1.52
is the branchless loop below: it keeps a `base` and a window `size`, probes
`base + size / 2`, moves `base` to the probe unless the probed key is greater
than the target, halves the window, and after the loop compares the single
remaining candidate, returning `Ok base` on equality and otherwise
`Err (base + 1)` when the candidate is below the target and `Err base` when it
is above. The loop runs `size - half` steps bounded by `size`, so it is
embedded with an explicit fuel argument (initial fuel `size` suffices because
`size` strictly decreases while staying at most the fuel). -/

/-- Result of `slice::binary_search_by`: `ok` for a found index, `err` for an
insertion point. -/
inductive SearchResult
  | ok (idx : Nat)
  | err (idx : Nat)
deriving DecidableEq

/-- Fueled embedding of the probe loop of Rust's `slice::binary_search_by`
(keys listed in slice order; out-of-range reads default to 0 but are never
exercised when `base + size` is within the list). -/
def bsLoop (keys : List ℚ) (target : ℚ) : Nat → Nat → Nat → Nat
  | 0, base, _ => base
  | fuel + 1, base, size =>
    if 1 < size then
      let half := size / 2
      let mid := base + half
      let base' := if target < keys.getD mid 0 then base else mid
      bsLoop keys target fuel base' (size - half)
    else base

/-- Embedding of Rust's `slice::binary_search_by` over the list of keys,
comparing each key to `target` with the total order. -/
def binary_search_by (keys : List ℚ) (target : ℚ) : SearchResult :=
  if keys.length = 0 then .err 0
  else
    let base := bsLoop keys target keys.length 0 keys.length
    let v := keys.getD base 0
    if v = target then .ok base
    else .err (base + if v < target then 1 else 0)

/-- Payload of a search result: the or-pattern `Ok(idx) | Err(idx) => idx`
used twice by `binary_search_slice` extracts the index from either case. -/
def SearchResult.idx : SearchResult → Nat
  | .ok i => i
  | .err i => i

/-- The left walk-back loop of `binary_search_slice`: starting from an index,
step left while the key at the index is still at least `left`, stopping at
index 0 at the latest. -/
def walkback (keys : List ℚ) (left : ℚ) : Nat → Nat
  | 0 => 0
  | idx + 1 => if left ≤ keys.getD (idx + 1) 0 then walkback keys left idx else idx + 1

/-- Core of `binary_search_slice` from `database_opt.rs`, phrased over the
projected key list: binary-search for `left`, walk the resulting index (minus
one, saturating; `Nat` subtraction is saturating) back past keys still at
least `left`; binary-search for `right` and clamp the resulting index to the
last valid index (again with saturating subtraction for the empty slice). -/
def binary_search_keys (keys : List ℚ) (left right : ℚ) : Nat × Nat :=
  let left_idx := walkback keys left ((binary_search_by keys left).idx - 1)
  let right_idx := min (binary_search_by keys right).idx (keys.length - 1)
  (left_idx, right_idx)

/-- `binary_search_slice` from `database_opt.rs`: generic over a slice and a
key projection. -/
def binary_search_slice {α : Type} (slice : List α) (key : α → ℚ) (left right : ℚ) :
    Nat × Nat :=
  binary_search_keys (slice.map key) left right

/-! ### Bucketing

`par_chunks_mut(FRAGMENT_BUCKET_SIZE)` partitions the fragment array into
disjoint contiguous windows of the bucket size, the last possibly shorter and
never empty. Embedded as a fueled take/drop recursion (initial fuel equal to
the list length suffices, since each step with a positive chunk size strictly
shortens the list). -/

/-- Fueled helper for `chunksOf`. -/
def chunksOfAux {α : Type} (n : Nat) : Nat → List α → List (List α)
  | 0, _ => []
  | _, [] => []
  | fuel + 1, l => l.take n :: chunksOfAux n fuel (l.drop n)

/-- Partition a list into contiguous chunks of size `n` (the last chunk may be
shorter); the embedding of Rust's `chunks` / `par_chunks_mut` iteration order. -/
def chunksOf {α : Type} (n : Nat) (l : List α) : List (List α) :=
  chunksOfAux n l.length l

/-! ### Construction pipeline (`IndexedDatabase::new`)

The construction entry point takes the FASTA path, the static modification
map, and the fragment m/z bounds. The external collaborators it drives (FASTA
parsing, trypsin digestion, fallible peptide construction, modification
application, ion-series generation) are out of scope and are supplied as
explicit inputs: the protein list stands for `Fasta::open(p)?.proteins`, and
the collaborator functions are fields of `BuildInput`. The static-modification
loop plus the unconditional N-terminal `Tmt11Plex` modification are collapsed
into the single peptide transformer `applyMods`. -/

/-- Inputs of `IndexedDatabase::new`: the parsed protein entries (abstract
type `π`), the digestion collaborator (`Trypsin::digest`), the fallible
peptide constructor (`Peptide::try_from`), the modification application
(static mods plus the unconditional N-terminal mod), the ion-series
collaborator (`IonSeries::new`), and the fragment m/z bounds. -/
structure BuildInput (π : Type) where
  proteins : List π
  digestFn : π → List Digest
  tryFrom : Digest → Option Peptide
  applyMods : Peptide → Peptide
  ionSeries : Peptide → Kind → Nat → List Ion
  fragment_min_mz : ℚ
  fragment_max_mz : ℚ

/-- Digestion stage of `IndexedDatabase::new`: digest every protein, keep
sequences of length 7 to 50 inclusive, and collect into a set (the `HashSet`
deduplicates by exact digest identity; its iteration order is unspecified, so
the list order here is one admissible order). -/
def candidateDigests {π : Type} (inp : BuildInput π) : List Digest :=
  ((inp.proteins.flatMap inp.digestFn).filter
    (fun dig => decide (7 ≤ dig.sequence.length ∧ dig.sequence.length ≤ 50))).dedup

/-- Peptide stage of `IndexedDatabase::new`: fallibly build a peptide from
each unique digest (failures silently dropped), apply the modifications, and
tag as decoy or target from the digest's reversed flag. -/
def rawTargetDecoys {π : Type} (inp : BuildInput π) : List TargetDecoy :=
  (candidateDigests inp).filterMap fun digest =>
    (inp.tryFrom digest).map fun pep =>
      let pep := inp.applyMods pep
      match digest.reversed with
      | true => TargetDecoy.decoy pep
      | false => TargetDecoy.target pep

/-- The peptide collection after the stable sort by precursor neutral mass
(`target_decoys.sort_by(total_cmp on neutral)`). -/
def sortedTargetDecoys {π : Type} (inp : BuildInput π) : List TargetDecoy :=
  List.insertionSort (fun a b => a.neutral ≤ b.neutral) (rawTargetDecoys inp)

/-- Fragment generation stage of `IndexedDatabase::new`: for each peptide (in
sorted order, indexed by position), each charge 1..4 and each kind B then Y,
generate the ion series, map each ion to a fragment record carrying the
peptide index and precursor mass, and keep records within the fragment m/z
bounds. -/
def generatedFragments {π : Type} (inp : BuildInput π) : List Theoretical :=
  (sortedTargetDecoys inp).enum.flatMap fun p =>
    ([1, 2, 3] : List Nat).flatMap fun charge =>
      ([Kind.b, Kind.y]).flatMap fun kind =>
        ((inp.ionSeries p.2.peptide kind charge).map fun ion =>
          { peptide_index := p.1
            precursor_mz := p.2.neutral
            fragment_mz := ion.mz
            kind := ion.kind
            charge := ion.charge }).filter fun frag =>
          decide (inp.fragment_min_mz ≤ frag.fragment_mz ∧
            frag.fragment_mz ≤ inp.fragment_max_mz)

/-- The fragment collection after the global stable sort by fragment m/z
(`fragments.sort_by(total_cmp on fragment_mz)`). -/
def sortedFragments {π : Type} (inp : BuildInput π) : List Theoretical :=
  List.insertionSort (fun a b => a.fragment_mz ≤ b.fragment_mz) (generatedFragments inp)

/-- The fragment windows produced by `par_chunks_mut(FRAGMENT_BUCKET_SIZE)`
over the globally sorted fragment collection, before the intra-bucket resort. -/
def fragmentChunks {π : Type} (inp : BuildInput π) : List (List Theoretical) :=
  chunksOf FRAGMENT_BUCKET_SIZE (sortedFragments inp)

/-- The indexed database (`IndexedDatabase` in `database_opt.rs`): sorted
peptides, bucketed doubly-sorted fragments, per-bucket minimum fragment m/z,
and the construction-time fragment m/z bounds. -/
structure IndexedDatabase where
  peptides : List TargetDecoy
  fragments : List Theoretical
  min_value : List ℚ
  fragment_min_mz : ℚ
  fragment_max_mz : ℚ
deriving DecidableEq

/-- `IndexedDatabase::new`: build the database from the digestion inputs. Each
window records its first element's fragment m/z (the window minimum, because
the window comes from the globally sorted array; `chunk[0]` on a never-empty
chunk is embedded as `headD default`) and is then re-sorted in place by
precursor mass; the re-sorted windows are flattened back into the fragment
array. The `Result` wrapper of the Rust function only propagates the FASTA
open error, which is outside this model. -/
def IndexedDatabase.new {π : Type} (inp : BuildInput π) : IndexedDatabase :=
  let chunks := fragmentChunks inp
  { peptides := sortedTargetDecoys inp
    fragments :=
      (chunks.map (List.insertionSort fun a b => a.precursor_mz ≤ b.precursor_mz)).flatten
    min_value := chunks.map fun chunk => (chunk.headD default).fragment_mz
    fragment_min_mz := inp.fragment_min_mz
    fragment_max_mz := inp.fragment_max_mz }

/-- `IndexedDatabase::size`: the total fragment record count. -/
def IndexedDatabase.size (db : IndexedDatabase) : Nat := db.fragments.length

/-- The `Index PeptideIx` implementation for `IndexedDatabase`:
`&self.peptides[index.0 as usize]`. `Vec` indexing panics when the index is
out of range; the panic is embedded as `none`. -/
def IndexedDatabase.lookup (db : IndexedDatabase) (index : Nat) : Option TargetDecoy :=
  db.peptides.get? index

/-- `IndexedQuery`: a borrowed view binding one spectrum and the two
tolerances to a database. -/
structure IndexedQuery where
  db : IndexedDatabase
  query : ProcessedSpectrum
  precursor_tol : Tolerance
  fragment_tol : Tolerance

/-- `IndexedDatabase::query`: pair the database with a spectrum and the two
tolerances. -/
def IndexedDatabase.query (db : IndexedDatabase) (query : ProcessedSpectrum)
    (precursor_tol : Tolerance) (fragment_tol : Tolerance) : IndexedQuery :=
  { db := db, query := query, precursor_tol := precursor_tol, fragment_tol := fragment_tol }

/-- Bucket-range to element-range conversion inside
`IndexedQuery::page_search`: run `binary_search_slice` over the per-bucket
minimum array with the fragment window, then convert the bucket indices with
`left_idx * FRAGMENT_BUCKET_SIZE` and
`(right_idx * FRAGMENT_BUCKET_SIZE).min(fragment count)`. -/
def pageSearchElemRange (min_value : List ℚ) (nfrags : Nat) (fragment_lo fragment_hi : ℚ) :
    Nat × Nat :=
  let p := binary_search_slice min_value (fun m => m) fragment_lo fragment_hi
  (p.1 * FRAGMENT_BUCKET_SIZE, min (p.2 * FRAGMENT_BUCKET_SIZE) nfrags)

/-- The element-range conversion as the spec words it (for comparison with
`pageSearchElemRange`, which follows the code): the right bucket index is
widened by one before scaling, `min ((right_bucket + 1) * FRAGMENT_BUCKET_SIZE)
(fragment count)`, so the whole right bucket is scanned and the clamp handles
the final partial bucket. -/
def pageSearchElemRangeSpecced (min_value : List ℚ) (nfrags : Nat)
    (fragment_lo fragment_hi : ℚ) : Nat × Nat :=
  let p := binary_search_slice min_value (fun m => m) fragment_lo fragment_hi
  (p.1 * FRAGMENT_BUCKET_SIZE, min ((p.2 + 1) * FRAGMENT_BUCKET_SIZE) nfrags)

/-- `IndexedQuery::page_search`: compute the fragment window, narrow to an
element range through the bucket minima, compute the precursor window around
`query.precursor_mz - PROTON`, slice the fragment array, narrow again by
precursor mass inside the slice (exclusive upper index, as in
`slice[inner_left..inner_right]`), and filter exactly on both windows. The two
Rust slicings panic when the range is inverted or past the end; those panics
are embedded as `none`. -/
def IndexedQuery.page_search (q : IndexedQuery) (fragment_mz : ℚ) :
    Option (List Theoretical) :=
  let fb := q.fragment_tol.bounds fragment_mz
  let er := pageSearchElemRange q.db.min_value q.db.fragments.length fb.1 fb.2
  let pb := q.precursor_tol.bounds (q.query.precursor_mz - PROTON)
  if er.1 ≤ er.2 ∧ er.2 ≤ q.db.fragments.length then
    let slice := (q.db.fragments.drop er.1).take (er.2 - er.1)
    let ip := binary_search_slice slice (fun frag => frag.precursor_mz) pb.1 pb.2
    if ip.1 ≤ ip.2 ∧ ip.2 ≤ slice.length then
      some (((slice.drop ip.1).take (ip.2 - ip.1)).filter fun frag =>
        decide (pb.1 ≤ frag.precursor_mz ∧ frag.precursor_mz ≤ pb.2 ∧
          fb.1 ≤ frag.fragment_mz ∧ frag.fragment_mz ≤ fb.2))
    else none
  else none

/-! ### Lemmas about the binary-search primitive -/

/-- Monotone access into a list sorted by the non-strict order. -/
theorem sorted_getD_mono {keys : List ℚ} (hs : keys.Sorted (· ≤ ·))
    {i j : Nat} (hij : i ≤ j) (hj : j < keys.length) :
    keys.getD i 0 ≤ keys.getD j 0 := by
  rcases Nat.eq_or_lt_of_le hij with rfl | hlt
  · exact le_refl _
  · have hi : i < keys.length := Nat.lt_trans hlt hj
    rw [List.getD_eq_getElem _ _ hi, List.getD_eq_getElem _ _ hj]
    exact List.pairwise_iff_getElem.mp hs i j hi hj hlt

/-- The probe loop stays within its window: the result is at least `base` and
less than `base + size`, whenever the fuel covers the window size. -/
theorem bsLoop_bounds (keys : List ℚ) (target : ℚ) :
    ∀ fuel size base, size ≤ fuel → 0 < size →
      base ≤ bsLoop keys target fuel base size ∧
        bsLoop keys target fuel base size < base + size := by
  intro fuel
  induction fuel with
  | zero => intro size base hf hs; omega
  | succ n ih =>
    intro size base hf hs
    rw [bsLoop]
    by_cases h : 1 < size
    · rw [if_pos h]
      by_cases hprobe : target < keys.getD (base + size / 2) 0
      · simp only [if_pos hprobe]
        have := ih (size - size / 2) base (by omega) (by omega)
        omega
      · simp only [if_neg hprobe]
        have := ih (size - size / 2) (base + size / 2) (by omega) (by omega)
        omega
    · rw [if_neg h]
      omega

/-- In a sorted key list, every index strictly past the probe loop's result
and still inside the probed window holds a key strictly above the target. -/
theorem bsLoop_gt {keys : List ℚ} (hs : keys.Sorted (· ≤ ·)) (target : ℚ) :
    ∀ fuel size base, size ≤ fuel → 0 < size → base + size ≤ keys.length →
      ∀ i, bsLoop keys target fuel base size < i → i < base + size →
        target < keys.getD i 0 := by
  intro fuel
  induction fuel with
  | zero => intro size base hf hs'; omega
  | succ n ih =>
    intro size base hf hs' hlen i h1 h2
    rw [bsLoop] at h1
    by_cases h : 1 < size
    · rw [if_pos h] at h1
      by_cases hprobe : target < keys.getD (base + size / 2) 0
      · simp only [if_pos hprobe] at h1
        by_cases hwin : i < base + (size - size / 2)
        · exact ih (size - size / 2) base (by omega) (by omega) (by omega) i h1 hwin
        · calc target < keys.getD (base + size / 2) 0 := hprobe
            _ ≤ keys.getD i 0 := sorted_getD_mono hs (by omega) (by omega)
      · simp only [if_neg hprobe] at h1
        exact ih (size - size / 2) (base + size / 2) (by omega) (by omega) (by omega) i h1
          (by omega)
    · rw [if_neg h] at h1
      omega

/-- Characterization of `binary_search_by` used for the completeness and
clamping arguments: a found index is in range and every later index holds a
strictly larger key; an insertion point is at most the length and every index
from it on holds a strictly larger key. The second part assumes the keys are
sorted; the range bounds do not. -/
theorem binary_search_by_ok {keys : List ℚ} {target : ℚ} {b : Nat}
    (h : binary_search_by keys target = .ok b) :
    b < keys.length ∧ (keys.Sorted (· ≤ ·) →
      ∀ j, b < j → j < keys.length → target < keys.getD j 0) := by
  unfold binary_search_by at h
  by_cases h0 : keys.length = 0
  · rw [if_pos h0] at h; cases h
  · rw [if_neg h0] at h
    have hb := bsLoop_bounds keys target keys.length keys.length 0 (le_refl _) (by omega)
    by_cases he : keys.getD (bsLoop keys target keys.length 0 keys.length) 0 = target
    · simp only [if_pos he] at h
      cases h
      refine ⟨by omega, fun hs j hj hjl => ?_⟩
      exact bsLoop_gt hs target keys.length keys.length 0 (le_refl _) (by omega) (by omega)
        j hj (by omega)
    · simp only [if_neg he] at h
      cases h

/-- Insertion-point case of the `binary_search_by` characterization. -/
theorem binary_search_by_err {keys : List ℚ} {target : ℚ} {e : Nat}
    (h : binary_search_by keys target = .err e) :
    e ≤ keys.length ∧ (keys.Sorted (· ≤ ·) →
      ∀ j, e ≤ j → j < keys.length → target < keys.getD j 0) := by
  unfold binary_search_by at h
  by_cases h0 : keys.length = 0
  · rw [if_pos h0] at h
    cases h
    exact ⟨by omega, fun _ j _ hj => by omega⟩
  · rw [if_neg h0] at h
    have hb := bsLoop_bounds keys target keys.length keys.length 0 (le_refl _) (by omega)
    set b := bsLoop keys target keys.length 0 keys.length with hbdef
    by_cases he : keys.getD b 0 = target
    · simp only [if_pos he] at h; cases h
    · simp only [if_neg he] at h
      have hgt : ∀ hs : keys.Sorted (· ≤ ·),
          ∀ j, b < j → j < keys.length → target < keys.getD j 0 := fun hs j hj hjl =>
        bsLoop_gt hs target keys.length keys.length 0 (le_refl _) (by omega) (by omega)
          j hj (by omega)
      by_cases hlt : keys.getD b 0 < target
      · rw [if_pos hlt] at h
        cases h
        exact ⟨by omega, fun hs j hj hjl => hgt hs j (by omega) hjl⟩
      · rw [if_neg hlt] at h
        cases h
        refine ⟨by omega, fun hs j hj hjl => ?_⟩
        rcases Nat.eq_or_lt_of_le hj with rfl | hj'
        · rcases lt_or_eq_of_le (not_lt.mp hlt) with h' | h'
          · exact h'
          · exact absurd h'.symm he
        · exact hgt hs j hj' hjl

/-- The walk-back never moves right. -/
theorem walkback_le (keys : List ℚ) (left : ℚ) : ∀ idx, walkback keys left idx ≤ idx := by
  intro idx
  induction idx with
  | zero => simp [walkback]
  | succ n ih =>
    rw [walkback]
    by_cases h : left ≤ keys.getD (n + 1) 0
    · rw [if_pos h]; omega
    · rw [if_neg h]

/-- The walk-back stops at index 0 or at a key strictly below the lower
bound. -/
theorem walkback_stop (keys : List ℚ) (left : ℚ) :
    ∀ idx, walkback keys left idx = 0 ∨ keys.getD (walkback keys left idx) 0 < left := by
  intro idx
  induction idx with
  | zero => left; simp [walkback]
  | succ n ih =>
    rw [walkback]
    by_cases h : left ≤ keys.getD (n + 1) 0
    · rw [if_pos h]; exact ih
    · rw [if_neg h]; right; exact not_le.mp h

/-- The index extracted from a `binary_search_by` result never exceeds the
length of the key list (no sortedness needed). -/
theorem binary_search_by_idx_le (keys : List ℚ) (target : ℚ) :
    (binary_search_by keys target).idx ≤ keys.length := by
  rcases h : binary_search_by keys target with b | e
  · exact le_of_lt (binary_search_by_ok h).1
  · exact (binary_search_by_err h).1

/-- Left-hand completeness of `binary_search_keys`: any in-range index whose
key is at least `lo` lies at or after the returned left index. -/
theorem binary_search_keys_left_le {keys : List ℚ} (hs : keys.Sorted (· ≤ ·))
    (lo hi : ℚ) {i : Nat} (_hil : i < keys.length) (hmem : lo ≤ keys.getD i 0) :
    (binary_search_keys keys lo hi).1 ≤ i := by
  show walkback keys lo ((binary_search_by keys lo).idx - 1) ≤ i
  set L := walkback keys lo ((binary_search_by keys lo).idx - 1) with hL
  rcases walkback_stop keys lo ((binary_search_by keys lo).idx - 1) with h0 | hlt
  · omega
  · have hLle : L ≤ (binary_search_by keys lo).idx - 1 := walkback_le keys lo _
    have hidx : (binary_search_by keys lo).idx ≤ keys.length :=
      binary_search_by_idx_le keys lo
    by_contra hcon
    have hiL : i ≤ L := by omega
    have hLlen : L < keys.length := by omega
    exact absurd (le_trans hmem (sorted_getD_mono hs hiL hLlen)) (not_le.mpr hlt)

/-- Right-hand completeness of `binary_search_keys`: any in-range index whose
key is at most `hi` lies at or before the returned right index. -/
theorem binary_search_keys_right_ge {keys : List ℚ} (hs : keys.Sorted (· ≤ ·))
    (lo hi : ℚ) {i : Nat} (hil : i < keys.length) (hmem : keys.getD i 0 ≤ hi) :
    i ≤ (binary_search_keys keys lo hi).2 := by
  show i ≤ min (binary_search_by keys hi).idx (keys.length - 1)
  rcases h : binary_search_by keys hi with b | e
  · obtain ⟨hb, hgt⟩ := binary_search_by_ok h
    have hib : i ≤ b := by
      by_contra hcon
      exact absurd hmem (not_le.mpr (hgt hs i (by omega) hil))
    have hd : (SearchResult.ok b).idx = b := rfl
    rw [hd]
    exact Nat.le_min.mpr ⟨hib, by omega⟩
  · obtain ⟨he, hgt⟩ := binary_search_by_err h
    have hie : i < e := by
      by_contra hcon
      exact absurd hmem (not_le.mpr (hgt hs i (by omega) hil))
    have hd : (SearchResult.err e).idx = e := rfl
    rw [hd]
    exact Nat.le_min.mpr ⟨by omega, by omega⟩

/-! ### Claim C1 and C8: the tolerance-bounded binary search -/

/-- C1: for every slice sorted ascending by the projection key and every pair
of bounds `lo ≤ hi`, `binary_search_slice` returns a pair such that every
element whose key lies in the inclusive interval from `lo` to `hi` has its
index inside the inclusive returned index range; in particular every
occurrence in a run of duplicate keys touching either boundary is covered. -/
theorem binary_search_slice_completeness {α : Type} (slice : List α) (key : α → ℚ)
    (lo hi : ℚ) (hs : (slice.map key).Sorted (· ≤ ·)) (hlohi : lo ≤ hi)
    (i : Nat) (hil : i < slice.length)
    (hlo : lo ≤ (slice.map key).getD i 0) (hhi : (slice.map key).getD i 0 ≤ hi) :
    (binary_search_slice slice key lo hi).1 ≤ i ∧
      i ≤ (binary_search_slice slice key lo hi).2 := by
  have hlen : (slice.map key).length = slice.length := List.length_map _ _
  constructor
  · exact binary_search_keys_left_le hs lo hi (by omega) hlo
  · exact binary_search_keys_right_ge hs lo hi (by omega) hhi

/-- Witness for C1: the ascending sequence 1, 5, 5, 5, 9 searched with bounds
4 and 5 covers index 3, the last element of the duplicate run equal to the
upper bound. -/
theorem binary_search_slice_completeness_witness :
    (binary_search_slice [(1 : ℚ), 5, 5, 5, 9] (fun x => x) 4 5).1 ≤ 3 ∧
      3 ≤ (binary_search_slice [(1 : ℚ), 5, 5, 5, 9] (fun x => x) 4 5).2 :=
  binary_search_slice_completeness [(1 : ℚ), 5, 5, 5, 9] (fun x => x) 4 5
    (by decide) (by decide) 3 (by decide) (by decide) (by decide)

/-- C8: `binary_search_slice` on a zero-length slice returns the pair of
zeros (saturating arithmetic, no underflow), and on a nonempty slice both
returned indices are clamped into the valid index range whatever the bounds
are, out-of-range bounds included. -/
theorem binary_search_slice_clamped {α : Type} (slice : List α) (key : α → ℚ)
    (lo hi : ℚ) :
    (slice.length = 0 → binary_search_slice slice key lo hi = (0, 0)) ∧
    (0 < slice.length →
      (binary_search_slice slice key lo hi).1 < slice.length ∧
        (binary_search_slice slice key lo hi).2 < slice.length) := by
  constructor
  · intro h0
    have hnil : slice = [] := List.length_eq_zero.mp h0
    subst hnil
    rfl
  · intro hpos
    have hlen : (slice.map key).length = slice.length := List.length_map _ _
    constructor
    · have h1 : (binary_search_slice slice key lo hi).1 =
          walkback (slice.map key) lo ((binary_search_by (slice.map key) lo).idx - 1) := rfl
      rw [h1]
      have hw := walkback_le (slice.map key) lo ((binary_search_by (slice.map key) lo).idx - 1)
      have hx := binary_search_by_idx_le (slice.map key) lo
      omega
    · have h2 : (binary_search_slice slice key lo hi).2 =
          min (binary_search_by (slice.map key) hi).idx ((slice.map key).length - 1) := rfl
      rw [h2]
      exact lt_of_le_of_lt (min_le_right _ _) (by omega)

/-- Witness for C8: the empty slice yields the zero pair, and a three-element
slice with bounds entirely above its key range yields indices clamped below
the length. -/
theorem binary_search_slice_clamped_witness :
    binary_search_slice ([] : List ℚ) (fun x => x) 1 2 = (0, 0) ∧
      (binary_search_slice [(1 : ℚ), 2, 3] (fun x => x) 10 20).1 < 3 ∧
        (binary_search_slice [(1 : ℚ), 2, 3] (fun x => x) 10 20).2 < 3 :=
  ⟨(binary_search_slice_clamped ([] : List ℚ) (fun x => x) 1 2).1 rfl,
    (binary_search_slice_clamped [(1 : ℚ), 2, 3] (fun x => x) 10 20).2 (by decide)⟩

/-! ### Lemmas about bucketing -/

/-- The fueled chunking does not depend on the fuel once the fuel covers the
list length. -/
theorem chunksOfAux_congr {α : Type} (n : Nat) (hn : 0 < n) :
    ∀ fuel1 fuel2 (l : List α), l.length ≤ fuel1 → l.length ≤ fuel2 →
      chunksOfAux n fuel1 l = chunksOfAux n fuel2 l := by
  intro fuel1
  induction fuel1 with
  | zero =>
    intro fuel2 l h1 h2
    have hnil : l = [] := List.length_eq_zero.mp (by omega)
    subst hnil
    cases fuel2 <;> rfl
  | succ f ih =>
    intro fuel2 l h1 h2
    cases l with
    | nil => cases fuel2 <;> rfl
    | cons x xs =>
      cases fuel2 with
      | zero => simp at h2
      | succ f2 =>
        show (x :: xs).take n :: chunksOfAux n f ((x :: xs).drop n) =
          (x :: xs).take n :: chunksOfAux n f2 ((x :: xs).drop n)
        have hd : ((x :: xs).drop n).length = (x :: xs).length - n :=
          List.length_drop n (x :: xs)
        have hc : (x :: xs).length = xs.length + 1 := rfl
        congr 1
        exact ih f2 _ (by omega) (by omega)

/-- Chunking the empty list yields no chunks. -/
theorem chunksOf_nil {α : Type} (n : Nat) : chunksOf n ([] : List α) = [] := rfl

/-- One-step unfolding of `chunksOf` on a nonempty list. -/
theorem chunksOf_cons {α : Type} {n : Nat} (hn : 0 < n) (l : List α) (hl : l ≠ []) :
    chunksOf n l = l.take n :: chunksOf n (l.drop n) := by
  cases l with
  | nil => exact absurd rfl hl
  | cons x xs =>
    show (x :: xs).take n :: chunksOfAux n xs.length ((x :: xs).drop n) = _
    have hd : ((x :: xs).drop n).length = (x :: xs).length - n :=
      List.length_drop n (x :: xs)
    have hc : (x :: xs).length = xs.length + 1 := rfl
    congr 1
    exact chunksOfAux_congr n hn xs.length ((x :: xs).drop n).length _ (by omega) (le_refl _)

/-- Flattening the chunks recovers the original list. -/
theorem chunksOf_flatten {α : Type} {n : Nat} (hn : 0 < n) (l : List α) :
    (chunksOf n l).flatten = l := by
  have H : ∀ k (l : List α), l.length ≤ k → (chunksOf n l).flatten = l := by
    intro k
    induction k with
    | zero =>
      intro l hl
      have hnil : l = [] := List.length_eq_zero.mp (by omega)
      subst hnil
      rfl
    | succ k ih =>
      intro l hl
      rcases eq_or_ne l [] with rfl | hne
      · rfl
      · have hpos : 0 < l.length := List.length_pos.mpr hne
        rw [chunksOf_cons hn l hne, List.flatten_cons,
          ih (l.drop n) (by rw [List.length_drop]; omega)]
        exact List.take_append_drop n l
  exact H l.length l (le_refl _)

/-- Every chunk is nonempty and no longer than the chunk size. -/
theorem mem_chunksOf {α : Type} {n : Nat} (hn : 0 < n) {c : List α} {l : List α}
    (hc : c ∈ chunksOf n l) : c ≠ [] ∧ c.length ≤ n := by
  have H : ∀ k (l : List α), l.length ≤ k → c ∈ chunksOf n l → c ≠ [] ∧ c.length ≤ n := by
    intro k
    induction k with
    | zero =>
      intro l hl hm
      have hnil : l = [] := List.length_eq_zero.mp (by omega)
      subst hnil
      rw [chunksOf_nil] at hm
      exact absurd hm (List.not_mem_nil c)
    | succ k ih =>
      intro l hl hm
      rcases eq_or_ne l [] with rfl | hne
      · rw [chunksOf_nil] at hm
        exact absurd hm (List.not_mem_nil c)
      · have hpos : 0 < l.length := List.length_pos.mpr hne
        rw [chunksOf_cons hn l hne] at hm
        rcases List.mem_cons.mp hm with rfl | hm'
        · refine ⟨?_, by rw [List.length_take]; omega⟩
          have : 0 < (l.take n).length := by rw [List.length_take]; omega
          exact List.length_pos.mp this
        · exact ih (l.drop n) (by rw [List.length_drop]; omega) hm'
  exact H l.length l (le_refl _) hc

/-- Chunks of a sorted list are sorted. -/
theorem sorted_of_mem_chunksOf {α : Type} {r : α → α → Prop} {n : Nat} (hn : 0 < n)
    {c : List α} {l : List α} (hs : l.Sorted r) (hc : c ∈ chunksOf n l) : c.Sorted r := by
  have H : ∀ k (l : List α), l.length ≤ k → l.Sorted r → c ∈ chunksOf n l → c.Sorted r := by
    intro k
    induction k with
    | zero =>
      intro l hl _ hm
      have hnil : l = [] := List.length_eq_zero.mp (by omega)
      subst hnil
      rw [chunksOf_nil] at hm
      exact absurd hm (List.not_mem_nil c)
    | succ k ih =>
      intro l hl hsort hm
      rcases eq_or_ne l [] with rfl | hne
      · rw [chunksOf_nil] at hm
        exact absurd hm (List.not_mem_nil c)
      · have hpos : 0 < l.length := List.length_pos.mpr hne
        rw [chunksOf_cons hn l hne] at hm
        rcases List.mem_cons.mp hm with rfl | hm'
        · exact hsort.sublist (List.take_sublist n l)
        · exact ih (l.drop n) (by rw [List.length_drop]; omega)
            (hsort.sublist (List.drop_sublist n l)) hm'
  exact H l.length l (le_refl _) hs hc

/-- Chunking a list that fits into one chunk yields that single chunk. -/
theorem chunksOf_singleton {α : Type} {n : Nat} (hn : 0 < n) {c : List α}
    (h1 : c ≠ []) (h2 : c.length ≤ n) : chunksOf n c = [c] := by
  rw [chunksOf_cons hn c h1, List.take_of_length_le h2, List.drop_eq_nil_of_le h2,
    chunksOf_nil]

/-- Chunking a list that starts with one full chunk peels that chunk off. -/
theorem chunksOf_append {α : Type} {n : Nat} (hn : 0 < n) {a b : List α}
    (ha : a.length = n) : chunksOf n (a ++ b) = a :: chunksOf n b := by
  have hne : a ≠ [] := by
    intro h
    subst h
    simp at ha
    omega
  have hne' : a ++ b ≠ [] := by simp [hne]
  rw [chunksOf_cons hn _ hne', List.take_left' ha, List.drop_left' ha]

/-- Re-chunking after a length-preserving per-chunk transformation recovers
the transformed chunks: the windows of the flattened transformed chunks are
exactly the transformed windows. -/
theorem chunksOf_rechunk {α : Type} {n : Nat} (hn : 0 < n) (f : List α → List α)
    (hf : ∀ c, (f c).length = c.length) (l : List α) :
    chunksOf n ((chunksOf n l).map f).flatten = (chunksOf n l).map f := by
  have H : ∀ k (l : List α), l.length ≤ k →
      chunksOf n ((chunksOf n l).map f).flatten = (chunksOf n l).map f := by
    intro k
    induction k with
    | zero =>
      intro l hl
      have hnil : l = [] := List.length_eq_zero.mp (by omega)
      subst hnil
      rfl
    | succ k ih =>
      intro l hl
      rcases eq_or_ne l [] with rfl | hne
      · rfl
      · have hpos : 0 < l.length := List.length_pos.mpr hne
        rw [chunksOf_cons hn l hne]
        simp only [List.map_cons, List.flatten_cons]
        by_cases hcase : l.length ≤ n
        · have hdrop : l.drop n = [] := List.drop_eq_nil_of_le hcase
          have htake : l.take n = l := List.take_of_length_le hcase
          rw [hdrop, htake, chunksOf_nil]
          simp only [List.map_nil, List.flatten_nil, List.append_nil]
          refine chunksOf_singleton hn ?_ (by rw [hf]; exact hcase)
          have : 0 < (f l).length := by rw [hf]; omega
          exact List.length_pos.mp this
        · have hlen : (f (l.take n)).length = n := by
            rw [hf, List.length_take]
            omega
          rw [chunksOf_append hn hlen]
          congr 1
          exact ih (l.drop n) (by rw [List.length_drop]; omega)
  exact H l.length l (le_refl _)

/-- The number of chunks is the length divided by the chunk size, rounded
up. -/
theorem chunksOf_length {α : Type} {n : Nat} (hn : 0 < n) (l : List α) :
    (chunksOf n l).length = (l.length + n - 1) / n := by
  have H : ∀ k (l : List α), l.length ≤ k →
      (chunksOf n l).length = (l.length + n - 1) / n := by
    intro k
    induction k with
    | zero =>
      intro l hl
      have hnil : l = [] := List.length_eq_zero.mp (by omega)
      subst hnil
      rw [chunksOf_nil]
      exact (Nat.div_eq_of_lt (by simp only [List.length_nil]; omega)).symm
    | succ k ih =>
      intro l hl
      rcases eq_or_ne l [] with rfl | hne
      · rw [chunksOf_nil]
        exact (Nat.div_eq_of_lt (by simp only [List.length_nil]; omega)).symm
      · have hpos : 0 < l.length := List.length_pos.mpr hne
        rw [chunksOf_cons hn l hne, List.length_cons,
          ih (l.drop n) (by rw [List.length_drop]; omega), List.length_drop]
        by_cases hcase : n ≤ l.length
        · have h1 : l.length - n + n - 1 = l.length - 1 := by omega
          have h2 : l.length + n - 1 = l.length - 1 + n := by omega
          rw [h1, h2, Nat.add_div_right _ hn]
        · have hdz : l.length - n = 0 := by omega
          rw [hdz]
          have h1 : (0 + n - 1) / n = 0 := Nat.div_eq_of_lt (by omega)
          rw [h1]
          exact (Nat.div_eq_of_lt_le (by omega) (by omega)).symm
  exact H l.length l (le_refl _)

/-! ### Lemmas about the construction pipeline -/

instance : IsTotal TargetDecoy fun a b => a.neutral ≤ b.neutral :=
  ⟨fun a b => le_total a.neutral b.neutral⟩

instance : IsTrans TargetDecoy fun a b => a.neutral ≤ b.neutral :=
  ⟨fun _ _ _ hab hbc => le_trans hab hbc⟩

instance : IsTotal Theoretical fun a b => a.fragment_mz ≤ b.fragment_mz :=
  ⟨fun a b => le_total a.fragment_mz b.fragment_mz⟩

instance : IsTrans Theoretical fun a b => a.fragment_mz ≤ b.fragment_mz :=
  ⟨fun _ _ _ hab hbc => le_trans hab hbc⟩

instance : IsTotal Theoretical fun a b => a.precursor_mz ≤ b.precursor_mz :=
  ⟨fun a b => le_total a.precursor_mz b.precursor_mz⟩

instance : IsTrans Theoretical fun a b => a.precursor_mz ≤ b.precursor_mz :=
  ⟨fun _ _ _ hab hbc => le_trans hab hbc⟩

/-- The bucket size is positive. -/
theorem FRAGMENT_BUCKET_SIZE_pos : 0 < FRAGMENT_BUCKET_SIZE := by
  rw [FRAGMENT_BUCKET_SIZE]
  omega

/-- A fragment record is in the built database exactly when the generation
stage produced it: the sort, bucketing and intra-bucket resort permute the
records without adding or dropping any. -/
theorem mem_new_fragments {π : Type} (inp : BuildInput π) (t : Theoretical) :
    t ∈ (IndexedDatabase.new inp).fragments ↔ t ∈ generatedFragments inp := by
  have hFBS := FRAGMENT_BUCKET_SIZE_pos
  constructor
  · intro h
    rcases List.mem_flatten.mp h with ⟨c', hc', ht⟩
    rcases List.mem_map.mp hc' with ⟨c, hc, rfl⟩
    have h1 : t ∈ c := (List.mem_insertionSort _).mp ht
    have h2 : t ∈ (fragmentChunks inp).flatten := List.mem_flatten.mpr ⟨c, hc, h1⟩
    rw [fragmentChunks, chunksOf_flatten hFBS] at h2
    exact (List.mem_insertionSort _).mp h2
  · intro h
    have h1 : t ∈ sortedFragments inp := (List.mem_insertionSort _).mpr h
    rw [← chunksOf_flatten hFBS (sortedFragments inp)] at h1
    rcases List.mem_flatten.mp h1 with ⟨c, hc, ht⟩
    refine List.mem_flatten.mpr ⟨List.insertionSort _ c, List.mem_map.mpr ⟨c, hc, rfl⟩, ?_⟩
    exact (List.mem_insertionSort _).mpr ht

/-- A peptide entry is in the built database exactly when the peptide stage
produced it (the mass sort is a permutation). -/
theorem mem_new_peptides {π : Type} (inp : BuildInput π) (td : TargetDecoy) :
    td ∈ (IndexedDatabase.new inp).peptides ↔ td ∈ rawTargetDecoys inp :=
  List.mem_insertionSort _

/-- The head of a nonempty list sorted by fragment m/z belongs to the list
and bounds every fragment m/z in it from below. -/
theorem headD_min_of_sorted {c : List Theoretical}
    (hs : c.Sorted fun a b => a.fragment_mz ≤ b.fragment_mz) (hne : c ≠ []) :
    c.headD default ∈ c ∧ ∀ t ∈ c, (c.headD default).fragment_mz ≤ t.fragment_mz := by
  cases c with
  | nil => exact absurd rfl hne
  | cons h ts =>
    refine ⟨List.mem_cons_self _ _, ?_⟩
    intro t ht
    rcases List.mem_cons.mp ht with rfl | ht'
    · exact le_refl _
    · exact List.rel_of_sorted_cons hs t ht'

/-- The globally sorted fragment collection is sorted by fragment m/z. -/
theorem sortedFragments_sorted {π : Type} (inp : BuildInput π) :
    (sortedFragments inp).Sorted fun a b => a.fragment_mz ≤ b.fragment_mz :=
  List.sorted_insertionSort _ _

/-- The final fragment array re-chunks into exactly the re-sorted windows. -/
theorem new_fragments_chunks {π : Type} (inp : BuildInput π) :
    chunksOf FRAGMENT_BUCKET_SIZE (IndexedDatabase.new inp).fragments =
      (fragmentChunks inp).map
        (List.insertionSort fun a b => a.precursor_mz ≤ b.precursor_mz) :=
  chunksOf_rechunk FRAGMENT_BUCKET_SIZE_pos _
    (fun c => List.length_insertionSort _ c) _

/-! ### Claims C4, C5, C6, C9, C10: construction invariants -/

/-- C5: for every constructed database the peptide collection is
non-decreasing by neutral mass (so the dense index resolves positionally into
the mass-sorted collection) and every bucket-size window of the fragment
collection is non-decreasing by precursor mass. Both orderings are fixed at
construction; all the exposed operations (`query`, `page_search`, `size`, the
indexed lookup) are read-only functions of the database value, so the
orderings are preserved afterwards by construction of the model. -/
theorem database_sort_invariant {π : Type} (inp : BuildInput π) :
    (((IndexedDatabase.new inp).peptides.map TargetDecoy.neutral).Sorted (· ≤ ·)) ∧
    ∀ c ∈ chunksOf FRAGMENT_BUCKET_SIZE (IndexedDatabase.new inp).fragments,
      (c.map Theoretical.precursor_mz).Sorted (· ≤ ·) := by
  constructor
  · have hs := List.sorted_insertionSort (fun a b : TargetDecoy => a.neutral ≤ b.neutral)
      (rawTargetDecoys inp)
    exact List.pairwise_map.mpr hs
  · intro c hc
    rw [new_fragments_chunks] at hc
    rcases List.mem_map.mp hc with ⟨c0, _, rfl⟩
    have hs := List.sorted_insertionSort
      (fun a b : Theoretical => a.precursor_mz ≤ b.precursor_mz) c0
    exact List.pairwise_map.mpr hs

/-- The concrete construction input shared by the construction-claim
witnesses: one protein digesting into one 7-residue peptide whose B-series at
charge 1 holds two ions, m/z 50 and 40, inside the bounds 0 to 1000. -/
def sampleInput : BuildInput Nat :=
  { proteins := [0]
    digestFn := fun _ => [{ sequence := [0, 1, 2, 3, 4, 5, 6], reversed := false },
      { sequence := [0, 1], reversed := false }]
    tryFrom := fun d => some { neutral := 100, seq := d.sequence }
    applyMods := fun p => p
    ionSeries := fun _ k c =>
      if k = Kind.b ∧ c = 1 then
        [{ mz := 50, kind := Kind.b, charge := 1 },
          { mz := 40, kind := Kind.b, charge := 1 },
          { mz := 2000, kind := Kind.b, charge := 1 }]
      else []
    fragment_min_mz := 0
    fragment_max_mz := 1000 }

/-- Witness for C5 at the concrete input: the mass-sorted peptide list is
sorted and the single concrete fragment window is sorted by precursor mass. -/
theorem database_sort_invariant_witness :
    ((IndexedDatabase.new sampleInput).peptides.map TargetDecoy.neutral).Sorted (· ≤ ·) ∧
      (([{ peptide_index := 0, precursor_mz := 100, fragment_mz := 40,
            kind := Kind.b, charge := 1 },
          { peptide_index := 0, precursor_mz := 100, fragment_mz := 50,
            kind := Kind.b, charge := 1 }] : List Theoretical).map
            Theoretical.precursor_mz).Sorted (· ≤ ·) :=
  ⟨(database_sort_invariant sampleInput).1,
    (database_sort_invariant sampleInput).2 _ (by decide)⟩

/-- Reading the per-bucket minimum array at an in-range bucket index gives
the head fragment m/z of the corresponding pre-resort window. -/
theorem min_value_getD {π : Type} (inp : BuildInput π) {b : Nat}
    (hb : b < (fragmentChunks inp).length) :
    (IndexedDatabase.new inp).min_value.getD b 0 =
      (((fragmentChunks inp).getD b []).headD default).fragment_mz := by
  have hmap : b < ((fragmentChunks inp).map
      fun chunk => (chunk.headD default).fragment_mz).length := by
    rw [List.length_map]
    exact hb
  show ((fragmentChunks inp).map fun chunk => (chunk.headD default).fragment_mz).getD b 0 = _
  rw [List.getD_eq_getElem _ _ hmap, List.getD_eq_getElem _ _ hb, List.getElem_map]

/-- C4: the per-bucket minimum array of a constructed database has exactly
one entry per bucket-size window of the fragment collection (its length is
the fragment count divided by the bucket size, rounded up), and each entry
equals the minimum fragment m/z of the records that occupied that window
right after the global fragment-m/z sort and before the intra-bucket resort
(`fragmentChunks`), equivalently that window's first element's fragment
m/z. -/
theorem bucket_minimum_correctness {π : Type} (inp : BuildInput π) :
    (IndexedDatabase.new inp).min_value.length =
      ((IndexedDatabase.new inp).size + FRAGMENT_BUCKET_SIZE - 1) / FRAGMENT_BUCKET_SIZE ∧
    ∀ b, b < (IndexedDatabase.new inp).min_value.length →
      (∃ t ∈ (fragmentChunks inp).getD b [],
        (IndexedDatabase.new inp).min_value.getD b 0 = t.fragment_mz) ∧
      ∀ t ∈ (fragmentChunks inp).getD b [],
        (IndexedDatabase.new inp).min_value.getD b 0 ≤ t.fragment_mz := by
  have hFBS := FRAGMENT_BUCKET_SIZE_pos
  have hlenmv : (IndexedDatabase.new inp).min_value.length = (fragmentChunks inp).length :=
    List.length_map _ _
  have hsize : (IndexedDatabase.new inp).size = (sortedFragments inp).length := by
    show (((fragmentChunks inp).map
      (List.insertionSort fun a b => a.precursor_mz ≤ b.precursor_mz)).flatten).length = _
    rw [List.length_flatten, List.map_map]
    have hcongr : (fragmentChunks inp).map
        (List.length ∘ List.insertionSort fun a b => a.precursor_mz ≤ b.precursor_mz) =
        (fragmentChunks inp).map List.length :=
      List.map_congr_left fun c _ => List.length_insertionSort _ c
    rw [hcongr, ← List.length_flatten, fragmentChunks, chunksOf_flatten hFBS]
  constructor
  · rw [hlenmv, hsize, fragmentChunks, chunksOf_length hFBS]
  · intro b hb
    rw [hlenmv] at hb
    set c := (fragmentChunks inp).getD b [] with hcdef
    have hcmem : c ∈ fragmentChunks inp := by
      rw [hcdef, List.getD_eq_getElem _ _ hb]
      exact List.getElem_mem hb
    have hcne : c ≠ [] := (mem_chunksOf hFBS hcmem).1
    have hcs : c.Sorted fun a b => a.fragment_mz ≤ b.fragment_mz :=
      sorted_of_mem_chunksOf hFBS (sortedFragments_sorted inp) hcmem
    obtain ⟨hhead, hmin⟩ := headD_min_of_sorted hcs hcne
    rw [min_value_getD inp hb]
    exact ⟨⟨c.headD default, hhead, rfl⟩, hmin⟩

/-- Witness for C4 at the concrete input: one window, whose recorded minimum
40 is witnessed by its first record and bounds both records from below. -/
theorem bucket_minimum_correctness_witness :
    (IndexedDatabase.new sampleInput).min_value.length =
      ((IndexedDatabase.new sampleInput).size + FRAGMENT_BUCKET_SIZE - 1) /
        FRAGMENT_BUCKET_SIZE ∧
    (∃ t ∈ (fragmentChunks sampleInput).getD 0 [],
      (IndexedDatabase.new sampleInput).min_value.getD 0 0 = t.fragment_mz) ∧
    ∀ t ∈ (fragmentChunks sampleInput).getD 0 [],
      (IndexedDatabase.new sampleInput).min_value.getD 0 0 ≤ t.fragment_mz :=
  ⟨(bucket_minimum_correctness sampleInput).1,
    (bucket_minimum_correctness sampleInput).2 0 (by decide)⟩

/-- C6: every fragment record of a constructed database has its fragment m/z
inside the inclusive bounds passed to the construction entry point, enforced
by the filter during fragment generation. -/
theorem fragment_bounds_containment {π : Type} (inp : BuildInput π) (t : Theoretical)
    (ht : t ∈ (IndexedDatabase.new inp).fragments) :
    (IndexedDatabase.new inp).fragment_min_mz ≤ t.fragment_mz ∧
      t.fragment_mz ≤ (IndexedDatabase.new inp).fragment_max_mz := by
  have h := (mem_new_fragments inp t).mp ht
  rw [generatedFragments] at h
  rcases List.mem_flatMap.mp h with ⟨p, _, h2⟩
  rcases List.mem_flatMap.mp h2 with ⟨charge, _, h3⟩
  rcases List.mem_flatMap.mp h3 with ⟨kind, _, h4⟩
  exact of_decide_eq_true (List.mem_filter.mp h4).2

/-- Witness for C6: the record with fragment m/z 40 produced by the sample
input lies within the bounds 0 and 1000. -/
theorem fragment_bounds_containment_witness :
    (IndexedDatabase.new sampleInput).fragment_min_mz ≤
        (({ peptide_index := 0, precursor_mz := 100, fragment_mz := 40,
            kind := Kind.b, charge := 1 } : Theoretical)).fragment_mz ∧
      (({ peptide_index := 0, precursor_mz := 100, fragment_mz := 40,
          kind := Kind.b, charge := 1 } : Theoretical)).fragment_mz ≤
        (IndexedDatabase.new sampleInput).fragment_max_mz :=
  fragment_bounds_containment sampleInput _ (by decide)

/-- C9: every peptide stored in a constructed database originates from a
digestion result whose sequence length is between 7 and 50 residues inclusive
(shorter or longer digests are discarded by the filter, which runs before the
set-collection deduplicates), via a successful fallible conversion, the
modification application and the reversed-flag classification; and the
deduplicated candidate list holds no duplicate digest, so identical digests
from different digestion events collapse to one. -/
theorem peptide_length_filter {π : Type} (inp : BuildInput π) :
    (∀ td ∈ (IndexedDatabase.new inp).peptides,
      ∃ d ∈ inp.proteins.flatMap inp.digestFn,
        (7 ≤ d.sequence.length ∧ d.sequence.length ≤ 50) ∧
        ∃ pep, inp.tryFrom d = some pep ∧
          td = (match d.reversed with
            | true => TargetDecoy.decoy (inp.applyMods pep)
            | false => TargetDecoy.target (inp.applyMods pep))) ∧
    (candidateDigests inp).Nodup := by
  constructor
  · intro td htd
    have h1 : td ∈ rawTargetDecoys inp := (mem_new_peptides inp td).mp htd
    rw [rawTargetDecoys] at h1
    rcases List.mem_filterMap.mp h1 with ⟨d, hd, hmap⟩
    rcases Option.map_eq_some'.mp hmap with ⟨pep, hpep, htd2⟩
    have hd1 : d ∈ (inp.proteins.flatMap inp.digestFn).filter
        (fun dig => decide (7 ≤ dig.sequence.length ∧ dig.sequence.length ≤ 50)) :=
      List.mem_dedup.mp hd
    obtain ⟨hdmem, hdlen⟩ := List.mem_filter.mp hd1
    exact ⟨d, hdmem, of_decide_eq_true hdlen, pep, hpep, htd2.symm⟩
  · exact List.nodup_dedup _

/-- Witness for C9: the stored target peptide of the sample input originates
from the 7-residue digest of its protein; the 2-residue digest is discarded. -/
theorem peptide_length_filter_witness :
    ∃ d ∈ sampleInput.proteins.flatMap sampleInput.digestFn,
      (7 ≤ d.sequence.length ∧ d.sequence.length ≤ 50) ∧
      ∃ pep, sampleInput.tryFrom d = some pep ∧
        TargetDecoy.target { neutral := 100, seq := [0, 1, 2, 3, 4, 5, 6] } =
          (match d.reversed with
            | true => TargetDecoy.decoy (sampleInput.applyMods pep)
            | false => TargetDecoy.target (sampleInput.applyMods pep)) :=
  (peptide_length_filter sampleInput).1
    (TargetDecoy.target { neutral := 100, seq := [0, 1, 2, 3, 4, 5, 6] }) (by decide)

/-- C10: looking a constructed database up by an in-range peptide index
returns that position of the mass-sorted peptide collection, and looking it
up by an out-of-range index is the embedded panic (`none`), not a masked
value: the `Vec` index operation fails loudly. -/
theorem peptide_lookup_contract {π : Type} (inp : BuildInput π) (i : Nat) :
    (∀ h : i < (IndexedDatabase.new inp).peptides.length,
      (IndexedDatabase.new inp).lookup i =
        some ((IndexedDatabase.new inp).peptides.get ⟨i, h⟩)) ∧
    ((IndexedDatabase.new inp).peptides.length ≤ i →
      (IndexedDatabase.new inp).lookup i = none) := by
  constructor
  · intro h
    exact List.get?_eq_get h
  · intro h
    exact List.get?_eq_none.mpr h

/-- Witness for C10: index 0 of the sample database resolves to its single
stored peptide and index 5 is out of range and fails. -/
theorem peptide_lookup_contract_witness :
    (IndexedDatabase.new sampleInput).lookup 0 =
      some ((IndexedDatabase.new sampleInput).peptides.get ⟨0, by decide⟩) ∧
    (IndexedDatabase.new sampleInput).lookup 5 = none :=
  ⟨(peptide_lookup_contract sampleInput 0).1 (by decide),
    (peptide_lookup_contract sampleInput 5).2 (by decide)⟩

/-! ### Claims C3, C7, C2: the query path -/

/-- C3: query soundness. Every fragment record yielded by `page_search` — on
any database value, so in particular on every constructed one — has its
precursor mass inside the inclusive window obtained from the precursor
tolerance applied to the spectrum's precursor m/z minus the proton mass, and
its fragment m/z inside the inclusive window obtained from the fragment
tolerance applied to the queried fragment m/z: the final exact filter is the
correctness backstop. Phrased with `List.all` over the returned sequence (the
embedded panic contributes no records). -/
theorem page_search_soundness (db : IndexedDatabase) (spec : ProcessedSpectrum)
    (ptol ftol : Tolerance) (fmz : ℚ) :
    (((db.query spec ptol ftol).page_search fmz).getD []).all (fun frag =>
      decide ((ptol.bounds (spec.precursor_mz - PROTON)).1 ≤ frag.precursor_mz ∧
        frag.precursor_mz ≤ (ptol.bounds (spec.precursor_mz - PROTON)).2 ∧
        (ftol.bounds fmz).1 ≤ frag.fragment_mz ∧
        frag.fragment_mz ≤ (ftol.bounds fmz).2)) = true := by
  unfold IndexedQuery.page_search
  dsimp only [IndexedDatabase.query]
  split
  · split
    · rw [Option.getD_some, List.all_eq_true]
      intro x hx
      exact (List.mem_filter.mp hx).2
    · rfl
  · rfl

/-- The binary search over an empty slice immediately returns the zero
pair. -/
theorem binary_search_slice_nil {α : Type} (key : α → ℚ) (lo hi : ℚ) :
    binary_search_slice ([] : List α) key lo hi = (0, 0) := rfl

/-- The element range selected over an empty bucket-minimum array is
degenerate. -/
theorem pageSearchElemRange_nil (n : Nat) (lo hi : ℚ) :
    pageSearchElemRange [] n lo hi = (0, 0) := by
  unfold pageSearchElemRange
  rw [binary_search_slice_nil]
  dsimp only
  simp only [Nat.zero_mul, Nat.zero_min]

/-- On a database with no fragments and no buckets, `page_search` reaches no
panic and yields the empty sequence. -/
theorem page_search_empty (q : IndexedQuery) (hf : q.db.fragments = [])
    (hm : q.db.min_value = []) (fmz : ℚ) : q.page_search fmz = some [] := by
  unfold IndexedQuery.page_search
  rw [hf, hm]
  simp only [pageSearchElemRange_nil, List.length_nil, Nat.le_refl, and_self, if_true,
    Nat.sub_self, List.drop_nil, List.take_nil, binary_search_slice_nil, List.filter_nil]

/-- C7: constructing the index from an input with zero proteins yields zero
peptides, zero fragments, zero buckets and size 0, and `page_search` on the
resulting database returns the empty sequence for any spectrum, tolerances
and fragment m/z without reaching either of the embedded panics. -/
theorem empty_database_behavior (π : Type) (digestFn : π → List Digest)
    (tryFrom : Digest → Option Peptide) (applyMods : Peptide → Peptide)
    (ionSeries : Peptide → Kind → Nat → List Ion) (fmin fmax : ℚ)
    (spec : ProcessedSpectrum) (ptol ftol : Tolerance) (fmz : ℚ) :
    (IndexedDatabase.new
      { proteins := ([] : List π), digestFn := digestFn, tryFrom := tryFrom,
        applyMods := applyMods, ionSeries := ionSeries,
        fragment_min_mz := fmin, fragment_max_mz := fmax }).peptides = [] ∧
    (IndexedDatabase.new
      { proteins := ([] : List π), digestFn := digestFn, tryFrom := tryFrom,
        applyMods := applyMods, ionSeries := ionSeries,
        fragment_min_mz := fmin, fragment_max_mz := fmax }).fragments = [] ∧
    (IndexedDatabase.new
      { proteins := ([] : List π), digestFn := digestFn, tryFrom := tryFrom,
        applyMods := applyMods, ionSeries := ionSeries,
        fragment_min_mz := fmin, fragment_max_mz := fmax }).min_value = [] ∧
    (IndexedDatabase.new
      { proteins := ([] : List π), digestFn := digestFn, tryFrom := tryFrom,
        applyMods := applyMods, ionSeries := ionSeries,
        fragment_min_mz := fmin, fragment_max_mz := fmax }).size = 0 ∧
    ((IndexedDatabase.new
      { proteins := ([] : List π), digestFn := digestFn, tryFrom := tryFrom,
        applyMods := applyMods, ionSeries := ionSeries,
        fragment_min_mz := fmin, fragment_max_mz := fmax }).query spec ptol
          ftol).page_search fmz = some [] := by
  refine ⟨rfl, rfl, rfl, rfl, ?_⟩
  exact page_search_empty _ rfl rfl fmz

/-- C2 evaluation: the code converts the bucket range to an element range
with `right_idx * FRAGMENT_BUCKET_SIZE` and no widening, not the
`(right_idx + 1) * FRAGMENT_BUCKET_SIZE` the claim states. Over the
one-bucket minimum array with minimum 10 and 5 fragments, the fragment window
5 to 20 selects the bucket (its clamped inclusive bucket range is 0 to 0),
yet the code's element range is empty, 0 to 0, where the claimed conversion
gives 0 to 5. Consequently a single-bucket database never returns anything:
the final conjunct evaluates a whole database holding one fragment record
that lies inside both tolerance windows, and `page_search` yields the empty
sequence. -/
theorem page_search_right_bucket_dropped :
    pageSearchElemRange [10] 5 5 20 = (0, 0) ∧
    pageSearchElemRangeSpecced [10] 5 5 20 = (0, 5) ∧
    (IndexedDatabase.query
      { peptides := [],
        fragments := [{ peptide_index := 0, precursor_mz := 100, fragment_mz := 10,
                        kind := Kind.b, charge := 1 }],
        min_value := [10], fragment_min_mz := 0, fragment_max_mz := 1000 }
      { precursor_mz := 100 + PROTON } (Tolerance.mk fun c => (c - 1, c + 1))
      (Tolerance.mk fun _ => (9, 11))).page_search 10 = some [] := by
  refine ⟨by decide, by decide, by decide⟩
